import Mathlib

/-!
Formal model of the retrieval engine of the burnout-ai-agent repository.

The JavaScript source is shallowly embedded:
* JS strings are modelled as `List Char` (`Str`), so every string operation
  (trim, regex split on character classes, join) is an executable Lean function.
* JS float64 numbers holding vector components are modelled as exact rationals
  (`ℚ`); derived analytic quantities (square roots, cosine similarities) live
  in `ℝ`, i.e. float rounding is idealised to exact real arithmetic.
* Fallible JS code (`throw`) is modelled with `Except String`.
* The filesystem-backed chunk store of `lib/local-storage.js` is modelled by a
  `FileState` describing the backing file (missing / unparseable / present).
* External collaborators of `app/api/chat/route.js` (the OpenAI embedding and
  chat endpoints, and the Supabase `match_book_chunks` RPC behind
  `lib/supabase.searchBookChunks`) are parameters of the route model, since
  their implementations are not part of this repository.
-/

namespace Burnout

/-- JS strings are char lists. -/
abbrev Str := List Char

/-- Whitespace test used for the JS regexes `/\s+/` (ASCII whitespace). -/
def isWs (c : Char) : Bool := c.isWhitespace

/-- Sentence delimiter class of the regex `/[.!?]+/` in `splitTextIntoChunks`. -/
def isSentenceDelim (c : Char) : Bool := c = '.' || c = '!' || c = '?'

/-- Model of JS `String.prototype.split` on a regex `/[class]+/`: maximal runs
of delimiter characters separate the pieces, and empty pieces are kept at both
ends (e.g. `".a.".split(/\.+/) = ["", "a", ""]`, `"".split(/\.+/) = [""]`).
Processed structurally from the left: a delimiter character opens a new empty
piece unless the following character continues the same delimiter run. -/
def splitRuns (p : Char → Bool) : Str → List Str
  | [] => [[]]
  | [c] => if p c then [[], []] else [[c]]
  | c :: c2 :: cs =>
    if p c then
      if p c2 then splitRuns p (c2 :: cs)
      else [] :: splitRuns p (c2 :: cs)
    else
      match splitRuns p (c2 :: cs) with
      | [] => [[c]]
      | piece :: rest => (c :: piece) :: rest

/-- Model of JS `String.prototype.trim`. -/
def trim (s : Str) : Str :=
  ((s.dropWhile isWs).reverse.dropWhile isWs).reverse

/-- Model of JS `array.join(' ')`. -/
def joinSp : List Str → Str
  | [] => []
  | [w] => w
  | w :: w2 :: ws => w ++ ' ' :: joinSp (w2 :: ws)

/-- Strings with no leading and no trailing whitespace (the invariant of the
`currentChunk` accumulator of the chunking loop, which makes the
`currentChunk.trim()` on push a no-op). -/
def okStr (s : Str) : Prop :=
  (∀ c ∈ s.head?, isWs c = false) ∧ (∀ c ∈ s.getLast?, isWs c = false)

/-- Model of JS `array.slice(-n)`: the last `n` elements, the whole array when
`n` exceeds the length, and also the whole array when `n = 0` (since in JS
`-0 === 0` and `slice(0)` copies the array). -/
def sliceNeg (n : ℕ) (l : List α) : List α :=
  if n = 0 then l else l.drop (l.length - n)

/-- Embedding of `estimateTokens` from `src/scripts/ingest-books.js`:
`Math.ceil(text.split(/\s+/).length / 0.75)`; `0.75` is exactly `3/4` so this
is `⌈4·n/3⌉` for `n` the number of pieces of the whitespace split. -/
def estimateTokens (s : Str) : ℕ :=
  (4 * (splitRuns isWs s).length + 2) / 3

end Burnout

namespace Burnout

/-- A chunk record as persisted by `lib/local-storage.js` in
`book-chunks.json` (`id`, `content`, `embedding`, plus the metadata fields the
retrieval path reads). Embedding components are the exact rationals denoted by
the stored float64 values. -/
structure StoredChunk where
  id : String
  content : Str
  embedding : List ℚ
  book_title : String
  chunk_index : ℕ
  deriving DecidableEq, Repr

/-- A chunk decorated with its similarity to the query, as produced by the
`{...chunk, similarity}` spread in `searchBookChunks`. -/
structure ScoredChunk where
  chunk : StoredChunk
  similarity : ℝ

/-- State of the backing file `src/data/book-chunks.json` read by
`loadBookChunks`: absent, present but not valid JSON, or present with a parsed
list of chunks. -/
inductive FileState where
  | missing : FileState
  | unreadable : FileState
  | present : List StoredChunk → FileState

/-- Embedding of `loadBookChunks` from `lib/local-storage.js`: a missing file
returns `[]` (after logging), and a read/parse failure is caught and also
returns `[]`. -/
def loadBookChunks : FileState → List StoredChunk
  | .missing => []
  | .unreadable => []
  | .present chunks => chunks

/-- Loop body of `cosineSimilarity`: `dotProduct += vecA[i] * vecB[i]` over the
common indices (the function is only ever applied after the length check). -/
def dotProduct : List ℚ → List ℚ → ℚ
  | a :: as, b :: bs => a * b + dotProduct as bs
  | _, _ => 0

/-- Accumulated `normA`/`normB` of the `cosineSimilarity` loop before the
square root is taken: the sum of squared components. -/
def sumSq (v : List ℚ) : ℚ := dotProduct v v

/-- Embedding of `cosineSimilarity` from `lib/local-storage.js`: throws when
the vectors differ in length, returns `0` when either norm is zero, and
otherwise `dot / (normA * normB)` with `normA = √(Σ a_i²)`. -/
noncomputable def cosineSimilarity (vecA vecB : List ℚ) : Except String ℝ :=
  if vecA.length ≠ vecB.length then
    .error "Vectors must have the same length"
  else
    let dot : ℝ := (dotProduct vecA vecB : ℝ)
    let normA : ℝ := Real.sqrt (sumSq vecA : ℝ)
    let normB : ℝ := Real.sqrt (sumSq vecB : ℝ)
    if normA = 0 ∨ normB = 0 then .ok 0
    else .ok (dot / (normA * normB))

/-- The `chunks.map(chunk => ({...chunk, similarity: cosineSimilarity(...)}))`
step of `searchBookChunks`; a throw from `cosineSimilarity` propagates from the
first offending chunk. -/
noncomputable def scoreChunks (query : List ℚ) : List StoredChunk → Except String (List ScoredChunk)
  | [] => .ok []
  | c :: cs =>
    match cosineSimilarity query c.embedding with
    | .error e => .error e
    | .ok s =>
      match scoreChunks query cs with
      | .error e => .error e
      | .ok rest => .ok (⟨c, s⟩ :: rest)

/-- Embedding of `searchBookChunks` from `lib/local-storage.js`: load, return
`[]` for an empty corpus, score every chunk, filter by
`similarity >= matchThreshold`, sort descending by similarity (JS
`Array.prototype.sort` is stable, modelled by `List.mergeSort`), and truncate
with `slice(0, matchCount)`. -/
noncomputable def searchBookChunks (store : FileState) (queryEmbedding : List ℚ)
    (matchThreshold : ℚ) (matchCount : ℕ) : Except String (List ScoredChunk) :=
  let chunks := loadBookChunks store
  if chunks.length = 0 then
    .ok []
  else
    match scoreChunks queryEmbedding chunks with
    | .error e => .error e
    | .ok similarities =>
      .ok (((similarities.filter (fun c => decide ((matchThreshold : ℝ) ≤ c.similarity))).mergeSort
        (fun a b => decide (b.similarity ≤ a.similarity))).take matchCount)

end Burnout

namespace Burnout

/-- Sentence extraction of `splitTextIntoChunks` from
`src/scripts/ingest-books.js`:
`text.split(/[.!?]+/).filter(s => s.trim().length > 0)`. -/
def splitSentences (text : Str) : List Str :=
  (splitRuns isSentenceDelim text).filter (fun s => (trim s).length > 0)

/-- Re-punctuated form of one sentence inside the chunking loop:
`sentences[i].trim() + '.'`. -/
def fmtSentence (s : Str) : Str := trim s ++ ['.']

/-- Seed words carried over a chunk boundary: the code takes
`currentChunk.split(/\s+/).slice(-overlap)` and rejoins with spaces. -/
def seedOf (overlap : ℕ) (chunk : Str) : Str :=
  joinSp (sliceNeg overlap (splitRuns isWs chunk))

/-- The accumulation loop of `splitTextIntoChunks`, recursing over the
sentence list with the mutable state `(chunks, currentChunk, currentTokens)`
made explicit. When a sentence would overflow `chunkSize`, the current chunk
is pushed (trimmed) and the next chunk starts with the last `overlap` words of
the finalized chunk followed by the sentence; otherwise the sentence is
appended (with a separating space unless the chunk is the empty string, which
is falsy in JS). After the loop the trailing chunk is pushed if nonblank. -/
def buildChunksAux (chunkSize overlap : ℕ) :
    List Str → List Str → Str → ℕ → List Str
  | [], chunks, currentChunk, _ =>
    if (trim currentChunk).length > 0 then chunks ++ [trim currentChunk] else chunks
  | sen :: rest, chunks, currentChunk, currentTokens =>
    let s := fmtSentence sen
    let sentenceTokens := estimateTokens s
    if currentTokens + sentenceTokens > chunkSize ∧ currentChunk.length > 0 then
      let newChunk := seedOf overlap currentChunk ++ ' ' :: s
      buildChunksAux chunkSize overlap rest (chunks ++ [trim currentChunk]) newChunk
        (estimateTokens newChunk)
    else
      let newChunk := if currentChunk = [] then s else currentChunk ++ ' ' :: s
      buildChunksAux chunkSize overlap rest chunks newChunk (currentTokens + sentenceTokens)

/-- The finalized chunk sequence of `splitTextIntoChunks` before the final
minimum-length filter (the `chunks` array at the `return` line). -/
def finalizedChunks (text : Str) (chunkSize overlap : ℕ) : List Str :=
  buildChunksAux chunkSize overlap (splitSentences text) [] [] 0

/-- Embedding of `splitTextIntoChunks` from `src/scripts/ingest-books.js`
(defaults `chunkSize = 400`, `overlap = 50`), including the final
`chunks.filter(chunk => chunk.length > 50)`. -/
def splitTextIntoChunks (text : Str) (chunkSize : ℕ := 400) (overlap : ℕ := 50) : List Str :=
  (finalizedChunks text chunkSize overlap).filter (fun chunk => chunk.length > 50)

/-- Concatenation of a chunk list that ignores the overlap regions: the first
chunk is kept whole and every later chunk is kept minus the seed words it
inherited from its predecessor. -/
def dropSeedsAux (overlap : ℕ) (prev : Str) : List Str → Str
  | [] => []
  | c :: cs => c.drop (seedOf overlap prev).length ++ dropSeedsAux overlap c cs

/-- Concatenation of all chunks ignoring the seeded overlap regions. -/
def dropSeeds (overlap : ℕ) : List Str → Str
  | [] => []
  | c :: cs => c ++ dropSeedsAux overlap c cs

/-- Input exercising the minimum-length filter of `splitTextIntoChunks`: a
long first sentence ending in a short word, a tiny middle sentence, and a long
last sentence. With `chunkSize = 1` and `overlap = 1` the middle finalized
chunk is 9 characters long and is dropped by the `length > 50` filter. -/
def overlapCexText : Str :=
  "aaaaaaaaaaaaaaaaaaaaaaaaaaaaaaaaaaaaaaaaaaaaaaaaaaaaaaa end. Yo. bbbbbbbbbbbbbbbbbbbbbbbbbbbbbbbbbbbbbbbbbbbbbbbbbbbbbbbb.".toList

end Burnout

namespace Burnout

/-- JSON value found under the `question` key of the request body parsed by
the `POST` handler in `app/api/chat/route.js`. -/
inductive QuestionField where
  | missing : QuestionField
  | nonString : QuestionField
  | str : Str → QuestionField

/-- Source citation assembled by the route for each returned chunk. -/
structure SourceInfo where
  id : String
  bookTitle : String
  chunkIndex : ℕ
  similarity : ℤ
  preview : Str

/-- Body of a successful (HTTP 200) JSON response of the route. -/
structure ChatResponse where
  answer : Str
  sources : List SourceInfo
  confidence : ℤ
  chunksFound : ℕ

/-- Outcome of the `POST` handler: a 400 validation error with its message, or
a 200 JSON response. -/
inductive PostResult where
  | badRequest : String → PostResult
  | ok : ChatResponse → PostResult

/-- The graceful no-grounding answer returned when every threshold step comes
back empty. -/
def noRelevantMessage : Str :=
  "I cannot find any relevant information about that topic in the available books. Could you try rephrasing your question or asking about a different topic?".toList

/-- The progressive threshold relaxation of the route: search at threshold
`0.3` with cap `10`; if that is empty, at `0.2` with cap `15`; if that is also
empty, at `0.1` with cap `20`. `search` abstracts the store call
(`lib/supabase.searchBookChunks`, which delegates to the remote
`match_book_chunks` RPC) with the question embedding already applied. -/
def retrieveChunks (search : ℚ → ℕ → List ScoredChunk) : List ScoredChunk :=
  let r1 := search (3/10) 10
  let r2 := if r1.length = 0 then search (2/10) 15 else r1
  let r3 := if r2.length = 0 then search (1/10) 20 else r2
  r3

/-- Source list construction of the route:
`topChunks.map((chunk, index) => ({...}))` with
`similarity: Math.round(chunk.similarity * 100)` and a 200-character preview.
`round` is Mathlib's `⌊x + 1/2⌋`, which agrees with JS `Math.round`. -/
noncomputable def mkSources (topChunks : List ScoredChunk) : List SourceInfo :=
  topChunks.map (fun c =>
    { id := c.chunk.id
      bookTitle := c.chunk.book_title
      chunkIndex := c.chunk.chunk_index
      similarity := round ((c.similarity * 100 : ℝ))
      preview := c.chunk.content.take 200 ++ "...".toList })

/-- Confidence computation of the route:
`Math.round(topChunks.reduce((s, c) => s + c.similarity, 0) / topChunks.length * 100)`
guarded by `topChunks.length > 0 ? ... : 0`. -/
noncomputable def averageConfidence (topChunks : List ScoredChunk) : ℤ :=
  if topChunks.length > 0 then
    round ((topChunks.map (·.similarity)).sum / (topChunks.length : ℝ) * 100)
  else 0

/-- Embedding of the `POST` handler of `app/api/chat/route.js` (success path).
External collaborators are parameters: `embed` for `generateEmbedding`,
`search` for `searchBookChunks` (embedding, threshold, count), `gen` for
`generateChatResponse`. Validation mirrors
`!question || typeof question !== 'string' || question.trim().length === 0`
(an empty string is falsy) and `question.length > 1000`. -/
noncomputable def POST (embed : Str → List ℚ)
    (search : List ℚ → ℚ → ℕ → List ScoredChunk)
    (gen : Str → List ScoredChunk → Str) : QuestionField → PostResult
  | .missing => .badRequest "Question is required and must be a non-empty string"
  | .nonString => .badRequest "Question is required and must be a non-empty string"
  | .str question =>
    if question = [] ∨ (trim question).length = 0 then
      .badRequest "Question is required and must be a non-empty string"
    else if question.length > 1000 then
      .badRequest "Question is too long. Please keep it under 1000 characters."
    else
      let questionEmbedding := embed question
      let relevantChunks := retrieveChunks (search questionEmbedding)
      if relevantChunks.length = 0 then
        .ok { answer := noRelevantMessage, sources := [], confidence := 0, chunksFound := 0 }
      else
        let topChunks := relevantChunks.take 5
        .ok { answer := gen question topChunks
              sources := mkSources topChunks
              confidence := averageConfidence topChunks
              chunksFound := relevantChunks.length }

/-- Decidable characterisation of the request bodies the route rejects with a
400 before any external call. -/
def invalidQuestion : QuestionField → Bool
  | .missing => true
  | .nonString => true
  | .str q => q.isEmpty || (trim q).isEmpty || q.length > 1000

end Burnout

namespace Burnout

/-- A row of the Supabase `book_chunks` table as inserted by
`src/scripts/upload-to-supabase.js` (the fields the claims need: the
provenance title, the chunk index and the text). -/
structure Row where
  book_title : String
  chunk_index : ℕ
  content : Str
  deriving DecidableEq, Repr

/-- The remote table contents. -/
abbrev Store := List Row

/-- Embedding of `clearBookChunks`: delete every row whose
`metadata->>book_title` equals the book title. -/
def clearBookChunks (bookTitle : String) (store : Store) : Store :=
  store.filter (fun r => r.book_title ≠ bookTitle)

/-- Iterations of the upload loop
`for (let i = 0; i < chunks.length; i += batchSize)` with
`chunks.slice(i, i + batchSize)`; the fuel argument bounds the number of
iterations by the element count (each iteration consumes at least one element
for the batch sizes 5 and 10 the scripts use). -/
def toBatchesAux (batchSize : ℕ) : ℕ → List α → List (List α)
  | _, [] => []
  | 0, l => [l]
  | fuel + 1, x :: xs =>
    (x :: xs).take batchSize :: toBatchesAux batchSize fuel ((x :: xs).drop batchSize)

/-- Batching `chunks.slice(i, i + batchSize)` over the whole list. -/
def toBatches (batchSize : ℕ) (l : List α) : List (List α) :=
  toBatchesAux batchSize l.length l

/-- Upload loop of `uploadChunksToSupabase`: insert batch by batch; a failing
insert (`uploadOk` false at that batch index) throws, leaving the rows of the
earlier batches inserted. Returns the store after the loop and whether it
completed. -/
def uploadBatches (uploadOk : ℕ → Bool) : List (List Row) → ℕ → Store → Store × Bool
  | [], _, store => (store, true)
  | b :: bs, k, store =>
    if uploadOk k then uploadBatches uploadOk bs (k + 1) (store ++ b)
    else (store, false)

/-- Embedding of `uploadChunksToSupabase` (batch size 10) under a failure
oracle for the per-batch `insert` calls. -/
def uploadChunksToSupabase (uploadOk : ℕ → Bool) (chunks : List Row) (store : Store) :
    Store × Bool :=
  uploadBatches uploadOk (toBatches 10 chunks) 0 store

/-- Embedding phase of `processBookToSupabase`: chunks are embedded in batches
of 5 via `Promise.all`; a chunk whose embedding call fails maps to `null` and
is removed by `.filter(Boolean)`, while the surviving chunks keep their
original `globalIndex` as `chunk_index`. `embedOk` is the failure oracle for
the per-chunk embedding calls. -/
def embeddedRows (embedOk : ℕ → Bool) (bookTitle : String) (textChunks : List Str) : List Row :=
  ((toBatches 5 textChunks.enum).map
    (fun batch => batch.filter (fun p => embedOk p.1))).flatten.map
    (fun (p : ℕ × Str) => { book_title := bookTitle, chunk_index := p.1, content := p.2 })

/-- Embedding of `processBookToSupabase` acting on the remote store: clear the
book's existing rows when `clearExisting` is set, embed the text chunks
(skipping per-chunk failures), then upload in batches of 10. An upload throw
is caught by the surrounding `try/catch`, which only logs and returns, so the
store keeps whatever the loop managed to insert. -/
def processBookToSupabase (embedOk uploadOk : ℕ → Bool) (bookTitle : String)
    (textChunks : List Str) (clearExisting : Bool) (store : Store) : Store :=
  let cleared := if clearExisting then clearBookChunks bookTitle store else store
  let processedChunks := embeddedRows embedOk bookTitle textChunks
  (uploadChunksToSupabase uploadOk processedChunks cleared).1

end Burnout

namespace Burnout

theorem dotProduct_nil_left (b : List ℚ) : dotProduct [] b = 0 := by
  cases b <;> rfl

theorem dotProduct_nil_right (a : List ℚ) : dotProduct a [] = 0 := by
  cases a <;> rfl

theorem dotProduct_comm (a : List ℚ) : ∀ b : List ℚ, dotProduct a b = dotProduct b a := by
  induction a with
  | nil => intro b; rw [dotProduct_nil_left, dotProduct_nil_right]
  | cons x xs ih =>
    intro b
    cases b with
    | nil => rw [dotProduct_nil_left, dotProduct_nil_right]
    | cons y ys => simp only [dotProduct, ih ys]; ring

theorem sumSq_cons (x : ℚ) (v : List ℚ) : sumSq (x :: v) = x * x + sumSq v := rfl

theorem sumSq_nonneg (v : List ℚ) : 0 ≤ sumSq v := by
  induction v with
  | nil => norm_num [sumSq, dotProduct]
  | cons x xs ih => rw [sumSq_cons]; nlinarith [sq_nonneg x]

theorem sumSq_eq_zero_iff (v : List ℚ) : sumSq v = 0 ↔ ∀ x ∈ v, x = 0 := by
  induction v with
  | nil => simp [sumSq, dotProduct]
  | cons x xs ih =>
    rw [sumSq_cons]
    constructor
    · intro h y hy
      have hx2 : 0 ≤ x * x := mul_self_nonneg x
      have hxs := sumSq_nonneg xs
      have hx : x * x = 0 := by nlinarith
      have hs : sumSq xs = 0 := by nlinarith
      rcases List.mem_cons.mp hy with h1 | h2
      · subst h1; nlinarith
      · exact ih.mp hs y h2
    · intro h
      have hx : x = 0 := h x (List.mem_cons_self x xs)
      have hs : sumSq xs = 0 := ih.mpr (fun y hy => h y (List.mem_cons_of_mem x hy))
      rw [hx, hs]; ring

theorem dotProduct_sq_le (a : List ℚ) : ∀ b : List ℚ, dotProduct a b ^ 2 ≤ sumSq a * sumSq b := by
  induction a with
  | nil =>
    intro b
    rw [dotProduct_nil_left]
    have := sumSq_nonneg b
    have : (0:ℚ) ≤ sumSq [] * sumSq b := by
      have h0 : sumSq ([] : List ℚ) = 0 := rfl
      rw [h0]; nlinarith [sumSq_nonneg b]
    nlinarith
  | cons x xs ih =>
    intro b
    cases b with
    | nil =>
      rw [dotProduct_nil_right]
      have h0 : sumSq ([] : List ℚ) = 0 := rfl
      rw [h0]; nlinarith [sumSq_nonneg (x :: xs)]
    | cons y ys =>
      have hIH := ih ys
      have hSa := sumSq_nonneg xs
      have hSb := sumSq_nonneg ys
      simp only [dotProduct, sumSq_cons]
      rcases hSa.eq_or_lt with hSa0 | hSapos
      · have hd0 : dotProduct xs ys = 0 := by
          nlinarith [sq_nonneg (dotProduct xs ys)]
        rw [← hSa0, hd0]
        nlinarith [mul_nonneg (mul_self_nonneg x) hSb]
      · have hcs : 0 ≤ sumSq xs * sumSq ys - dotProduct xs ys ^ 2 := by nlinarith
        nlinarith [sq_nonneg (sumSq xs * y - dotProduct xs ys * x),
          mul_nonneg (add_nonneg (mul_self_nonneg x) hSa) hcs, hSapos]

end Burnout

namespace Burnout

theorem cosineSimilarity_len_ne (a b : List ℚ) (h : a.length ≠ b.length) :
    cosineSimilarity a b = .error "Vectors must have the same length" := by
  simp only [cosineSimilarity]
  rw [if_pos h]

theorem cosineSimilarity_zero_norm (a b : List ℚ) (h : a.length = b.length)
    (hz : Real.sqrt ((sumSq a : ℝ)) = 0 ∨ Real.sqrt ((sumSq b : ℝ)) = 0) :
    cosineSimilarity a b = .ok 0 := by
  simp only [cosineSimilarity]
  rw [if_neg (not_not_intro h), if_pos hz]

theorem cosineSimilarity_pos_norm (a b : List ℚ) (h : a.length = b.length)
    (hz : ¬(Real.sqrt ((sumSq a : ℝ)) = 0 ∨ Real.sqrt ((sumSq b : ℝ)) = 0)) :
    cosineSimilarity a b =
      .ok ((dotProduct a b : ℝ) /
        (Real.sqrt ((sumSq a : ℝ)) * Real.sqrt ((sumSq b : ℝ)))) := by
  simp only [cosineSimilarity]
  rw [if_neg (not_not_intro h), if_neg hz]

theorem cosineSimilarity_ok_of_len (a b : List ℚ) (h : a.length = b.length) :
    ∃ s : ℝ, cosineSimilarity a b = .ok s := by
  by_cases hz : Real.sqrt ((sumSq a : ℝ)) = 0 ∨ Real.sqrt ((sumSq b : ℝ)) = 0
  · exact ⟨0, cosineSimilarity_zero_norm a b h hz⟩
  · exact ⟨_, cosineSimilarity_pos_norm a b h hz⟩

theorem cosineSimilarity_error_iff (a b : List ℚ) :
    (∃ e, cosineSimilarity a b = .error e) ↔ a.length ≠ b.length := by
  constructor
  · rintro ⟨e, he⟩
    by_contra hlen
    obtain ⟨s, hs⟩ := cosineSimilarity_ok_of_len a b hlen
    rw [hs] at he
    exact Except.noConfusion he
  · intro h
    exact ⟨_, cosineSimilarity_len_ne a b h⟩

end Burnout

namespace Burnout

/-- Claim C5: for all pairs of equal-length vectors `a` and `b`,
`cosineSimilarity` succeeds with a value in `[-1, 1]`; it is `1` on a pair of
identical non-zero vectors; it is `0` (with no division performed) whenever
either vector has zero norm; and it is symmetric in its arguments. -/
theorem cosineSimilarity_bounds_one_zero_symm (a b : List ℚ) (h : a.length = b.length) :
    (∃ s : ℝ, cosineSimilarity a b = .ok s ∧ -1 ≤ s ∧ s ≤ 1) ∧
    ((∃ x ∈ a, x ≠ 0) → cosineSimilarity a a = .ok 1) ∧
    (Real.sqrt ((sumSq a : ℝ)) = 0 ∨ Real.sqrt ((sumSq b : ℝ)) = 0 →
      cosineSimilarity a b = .ok 0) ∧
    cosineSimilarity a b = cosineSimilarity b a := by
  have hSa : (0:ℝ) ≤ ((sumSq a : ℝ)) := by exact_mod_cast sumSq_nonneg a
  have hSb : (0:ℝ) ≤ ((sumSq b : ℝ)) := by exact_mod_cast sumSq_nonneg b
  refine ⟨?_, ?_, ?_, ?_⟩
  · by_cases hz : Real.sqrt ((sumSq a : ℝ)) = 0 ∨ Real.sqrt ((sumSq b : ℝ)) = 0
    · exact ⟨0, cosineSimilarity_zero_norm a b h hz, by norm_num, by norm_num⟩
    · push_neg at hz
      have hsa : 0 < Real.sqrt ((sumSq a : ℝ)) :=
        lt_of_le_of_ne (Real.sqrt_nonneg _) (Ne.symm hz.1)
      have hsb : 0 < Real.sqrt ((sumSq b : ℝ)) :=
        lt_of_le_of_ne (Real.sqrt_nonneg _) (Ne.symm hz.2)
      have hpos : 0 < Real.sqrt ((sumSq a : ℝ)) * Real.sqrt ((sumSq b : ℝ)) :=
        mul_pos hsa hsb
      have hcs : ((dotProduct a b : ℝ)) ^ 2 ≤ ((sumSq a : ℝ)) * ((sumSq b : ℝ)) := by
        exact_mod_cast dotProduct_sq_le a b
      have habs : |((dotProduct a b : ℝ))| ≤
          Real.sqrt ((sumSq a : ℝ)) * Real.sqrt ((sumSq b : ℝ)) := by
        calc |((dotProduct a b : ℝ))|
            = Real.sqrt (((dotProduct a b : ℝ)) ^ 2) := (Real.sqrt_sq_eq_abs _).symm
          _ ≤ Real.sqrt (((sumSq a : ℝ)) * ((sumSq b : ℝ))) := Real.sqrt_le_sqrt hcs
          _ = Real.sqrt ((sumSq a : ℝ)) * Real.sqrt ((sumSq b : ℝ)) := Real.sqrt_mul hSa _
      refine ⟨_, cosineSimilarity_pos_norm a b h (by push_neg; exact hz), ?_, ?_⟩
      · rw [le_div_iff₀ hpos]
        have := neg_abs_le ((dotProduct a b : ℝ))
        linarith
      · rw [div_le_one hpos]
        have := le_abs_self ((dotProduct a b : ℝ))
        linarith
  · rintro ⟨x, hx, hxne⟩
    have hSne : sumSq a ≠ 0 := fun h0 => hxne ((sumSq_eq_zero_iff a).mp h0 x hx)
    have hSpos : (0:ℝ) < ((sumSq a : ℝ)) := by
      have : (0:ℚ) < sumSq a := lt_of_le_of_ne (sumSq_nonneg a) (Ne.symm hSne)
      exact_mod_cast this
    have hsa : 0 < Real.sqrt ((sumSq a : ℝ)) := Real.sqrt_pos.mpr hSpos
    have hz : ¬(Real.sqrt ((sumSq a : ℝ)) = 0 ∨ Real.sqrt ((sumSq a : ℝ)) = 0) := by
      push_neg
      exact ⟨ne_of_gt hsa, ne_of_gt hsa⟩
    rw [cosineSimilarity_pos_norm a a rfl hz]
    have hdot : dotProduct a a = sumSq a := rfl
    have hmul : Real.sqrt ((sumSq a : ℝ)) * Real.sqrt ((sumSq a : ℝ)) = ((sumSq a : ℝ)) :=
      Real.mul_self_sqrt hSa
    rw [hdot, hmul, div_self (ne_of_gt hSpos)]
  · exact cosineSimilarity_zero_norm a b h
  · by_cases hz : Real.sqrt ((sumSq a : ℝ)) = 0 ∨ Real.sqrt ((sumSq b : ℝ)) = 0
    · rw [cosineSimilarity_zero_norm a b h hz, cosineSimilarity_zero_norm b a h.symm hz.symm]
    · rw [cosineSimilarity_pos_norm a b h hz,
        cosineSimilarity_pos_norm b a h.symm (fun hc => hz hc.symm),
        dotProduct_comm a b, mul_comm]

/-- Witness for C5 at the concrete equal-length pair `[1, 2]`, `[3, 4]`. -/
theorem cosineSimilarity_bounds_one_zero_symm_witness :
    (([1, 2] : List ℚ).length = ([3, 4] : List ℚ).length) ∧
    ((∃ s : ℝ, cosineSimilarity [1, 2] [3, 4] = .ok s ∧ -1 ≤ s ∧ s ≤ 1) ∧
      ((∃ x ∈ ([1, 2] : List ℚ), x ≠ 0) → cosineSimilarity [1, 2] [1, 2] = .ok 1) ∧
      (Real.sqrt ((sumSq ([1, 2] : List ℚ) : ℝ)) = 0 ∨
          Real.sqrt ((sumSq ([3, 4] : List ℚ) : ℝ)) = 0 →
        cosineSimilarity [1, 2] [3, 4] = .ok 0) ∧
      cosineSimilarity [1, 2] [3, 4] = cosineSimilarity [3, 4] [1, 2]) :=
  ⟨rfl, cosineSimilarity_bounds_one_zero_symm [1, 2] [3, 4] rfl⟩

end Burnout

namespace Burnout

theorem scoreChunks_ok_of_len (q : List ℚ) :
    ∀ cs : List StoredChunk, (∀ c ∈ cs, c.embedding.length = q.length) →
      ∃ l, scoreChunks q cs = .ok l := by
  intro cs
  induction cs with
  | nil => intro _; exact ⟨[], rfl⟩
  | cons c cs ih =>
    intro h
    have hc : q.length = c.embedding.length := (h c (List.mem_cons_self c cs)).symm
    obtain ⟨s, hs⟩ := cosineSimilarity_ok_of_len q c.embedding hc
    obtain ⟨l, hl⟩ := ih (fun x hx => h x (List.mem_cons_of_mem c hx))
    refine ⟨⟨c, s⟩ :: l, ?_⟩
    simp only [scoreChunks, hs, hl]

/-- Claim C10: `cosineSimilarity` throws exactly when its two inputs differ in
length, so under the precondition that every stored embedding has the query's
dimensionality, `searchBookChunks` never surfaces that throw: it returns `.ok`
on the whole corpus. -/
theorem searchBookChunks_total_of_uniform_dim (store : FileState) (q : List ℚ) (t : ℚ) (k : ℕ)
    (h : ∀ c ∈ loadBookChunks store, c.embedding.length = q.length) :
    (∀ a b : List ℚ, (∃ e, cosineSimilarity a b = .error e) ↔ a.length ≠ b.length) ∧
    ∃ res, searchBookChunks store q t k = .ok res := by
  refine ⟨cosineSimilarity_error_iff, ?_⟩
  simp only [searchBookChunks]
  by_cases hlen : (loadBookChunks store).length = 0
  · rw [if_pos hlen]
    exact ⟨[], rfl⟩
  · rw [if_neg hlen]
    obtain ⟨l, hl⟩ := scoreChunks_ok_of_len q (loadBookChunks store) h
    rw [hl]
    exact ⟨_, rfl⟩

/-- Witness for C10 on a one-chunk store whose embedding dimension matches the
query's. -/
theorem searchBookChunks_total_of_uniform_dim_witness :
    (∀ c ∈ loadBookChunks (.present [⟨"c1", [], [1, 0], "B", 0⟩]),
      c.embedding.length = ([1, 1] : List ℚ).length) ∧
    ((∀ a b : List ℚ, (∃ e, cosineSimilarity a b = .error e) ↔ a.length ≠ b.length) ∧
      ∃ res, searchBookChunks (.present [⟨"c1", [], [1, 0], "B", 0⟩]) [1, 1] 0 5 = .ok res) :=
  ⟨by decide, searchBookChunks_total_of_uniform_dim _ [1, 1] 0 5 (by decide)⟩

/-- Counterexample to claim C3: a query against a store whose backing file is
missing (or unparseable) produces the very same `.ok []` outcome as a valid
empty store — the caller receives no store-unavailability error. -/
theorem storeUnavailable_cex :
    searchBookChunks .missing [1] 0 5 = .ok [] ∧
    searchBookChunks .unreadable [1] 0 5 = .ok [] ∧
    searchBookChunks (.present []) [1] 0 5 = .ok [] ∧
    searchBookChunks .missing [1] 0 5 = searchBookChunks (.present []) [1] 0 5 :=
  ⟨rfl, rfl, rfl, rfl⟩

/-- Amended C3: `loadBookChunks` absorbs a missing or unreadable backing file
into the empty chunk list, so `searchBookChunks` returns the same `.ok []` for
a missing/unreadable file as for a reachable-but-empty store; no distinguishable
fail-fast signal reaches the caller. -/
theorem storeUnavailable_amended (q : List ℚ) (t : ℚ) (k : ℕ) :
    loadBookChunks .missing = [] ∧
    loadBookChunks .unreadable = [] ∧
    searchBookChunks .missing q t k = .ok [] ∧
    searchBookChunks .unreadable q t k = .ok [] ∧
    searchBookChunks .missing q t k = searchBookChunks (.present []) q t k :=
  ⟨rfl, rfl, rfl, rfl, rfl⟩

end Burnout

namespace Burnout

theorem simLe_trans : ∀ a b c : ScoredChunk,
    (fun a b : ScoredChunk => decide (b.similarity ≤ a.similarity)) a b →
    (fun a b : ScoredChunk => decide (b.similarity ≤ a.similarity)) b c →
    (fun a b : ScoredChunk => decide (b.similarity ≤ a.similarity)) a c := by
  intro a b c hab hbc
  simp only [decide_eq_true_eq] at *
  exact le_trans hbc hab

theorem simLe_total : ∀ a b : ScoredChunk,
    ((fun a b : ScoredChunk => decide (b.similarity ≤ a.similarity)) a b ||
      (fun a b : ScoredChunk => decide (b.similarity ≤ a.similarity)) b a) := by
  intro a b
  simp only [Bool.or_eq_true, decide_eq_true_eq]
  exact le_total b.similarity a.similarity

theorem scoreChunks_mem (q : List ℚ) :
    ∀ (cs : List StoredChunk) (sims : List ScoredChunk), scoreChunks q cs = .ok sims →
      ∀ x ∈ sims, x.chunk ∈ cs ∧ cosineSimilarity q x.chunk.embedding = .ok x.similarity := by
  intro cs
  induction cs with
  | nil =>
    intro sims h x hx
    simp only [scoreChunks, Except.ok.injEq] at h
    subst h
    exact absurd hx (List.not_mem_nil x)
  | cons c cs ih =>
    intro sims h x hx
    simp only [scoreChunks] at h
    cases hcos : cosineSimilarity q c.embedding with
    | error e => rw [hcos] at h; exact Except.noConfusion h
    | ok s =>
      rw [hcos] at h
      cases hsc : scoreChunks q cs with
      | error e => rw [hsc] at h; exact Except.noConfusion h
      | ok rest =>
        rw [hsc] at h
        simp only [Except.ok.injEq] at h
        subst h
        rcases List.mem_cons.mp hx with hx1 | hx2
        · subst hx1
          exact ⟨List.mem_cons_self c cs, hcos⟩
        · obtain ⟨h1, h2⟩ := ih rest hsc x hx2
          exact ⟨List.mem_cons_of_mem c h1, h2⟩

/-- Claim C2: for every store, query, threshold and limit, a successful
`searchBookChunks` result is sorted descending by similarity, contains only
corpus chunks whose `cosineSimilarity` to the query is at least the threshold,
has at most `limit` elements, is uniquely determined (determinism is inherent:
the embedding is a pure function of the store state and arguments), and —
because JS `Array.prototype.sort` is stable — breaks similarity ties by
insertion order: a tied pair in filtered corpus order survives in that order
in the sorted list the result is truncated from. -/
theorem searchBookChunks_ordering (store : FileState) (q : List ℚ) (t : ℚ) (k : ℕ)
    (res : List ScoredChunk) (h : searchBookChunks store q t k = .ok res) :
    res.Pairwise (fun a b => b.similarity ≤ a.similarity) ∧
    (∀ c ∈ res, ((t : ℝ)) ≤ c.similarity) ∧
    (∀ c ∈ res, c.chunk ∈ loadBookChunks store ∧
      cosineSimilarity q c.chunk.embedding = .ok c.similarity) ∧
    res.length ≤ k ∧
    (∀ res', searchBookChunks store q t k = .ok res' → res' = res) ∧
    (loadBookChunks store = [] ∧ res = [] ∨
      ∃ sims sorted,
        scoreChunks q (loadBookChunks store) = .ok sims ∧
        res = sorted.take k ∧
        sorted.Perm (sims.filter (fun c => decide (((t : ℝ)) ≤ c.similarity))) ∧
        sorted.Pairwise (fun a b => b.similarity ≤ a.similarity) ∧
        (∀ x y : ScoredChunk, x.similarity = y.similarity →
          List.Sublist [x, y] (sims.filter (fun c => decide (((t : ℝ)) ≤ c.similarity))) →
          List.Sublist [x, y] sorted)) := by
  have hdet : ∀ res', searchBookChunks store q t k = .ok res' → res' = res := by
    intro res' h'
    rw [h] at h'
    exact (Except.ok.inj h').symm
  simp only [searchBookChunks] at h
  by_cases hempty : (loadBookChunks store).length = 0
  · rw [if_pos hempty] at h
    have hres : res = [] := (Except.ok.inj h).symm
    subst hres
    refine ⟨List.Pairwise.nil, ?_, ?_, ?_, hdet, Or.inl ⟨List.length_eq_zero.mp hempty, rfl⟩⟩
    · intro c hc; exact absurd hc (List.not_mem_nil c)
    · intro c hc; exact absurd hc (List.not_mem_nil c)
    · simp
  · rw [if_neg hempty] at h
    cases hsc : scoreChunks q (loadBookChunks store) with
    | error e => rw [hsc] at h; exact Except.noConfusion h
    | ok sims =>
      rw [hsc] at h
      have hres := (Except.ok.inj h).symm
      subst hres
      set F := sims.filter (fun c => decide (((t : ℝ)) ≤ c.similarity)) with hF
      set sorted := F.mergeSort (fun a b => decide (b.similarity ≤ a.similarity)) with hsorted
      have hperm : sorted.Perm F := List.mergeSort_perm F _
      have hpair : sorted.Pairwise (fun a b => b.similarity ≤ a.similarity) := by
        have := @List.sorted_mergeSort ScoredChunk
          (fun a b : ScoredChunk => decide (b.similarity ≤ a.similarity))
          simLe_trans simLe_total F
        exact this.imp (fun hab => of_decide_eq_true hab)
      have hmemF : ∀ c ∈ sorted.take k, c ∈ F := by
        intro c hc
        exact (hperm.mem_iff).mp ((List.take_sublist k sorted).mem hc)
      refine ⟨?_, ?_, ?_, ?_, hdet, Or.inr ⟨sims, sorted, rfl, rfl, hperm, hpair, ?_⟩⟩
      · exact hpair.sublist (List.take_sublist k sorted)
      · intro c hc
        have hcF := hmemF c hc
        rw [hF] at hcF
        exact of_decide_eq_true (List.mem_filter.mp hcF).2
      · intro c hc
        have hcF := hmemF c hc
        rw [hF] at hcF
        exact scoreChunks_mem q (loadBookChunks store) sims hsc c
          (List.mem_filter.mp hcF).1
      · rw [List.length_take]
        exact min_le_left k sorted.length
      · intro x y hxy hsub
        exact List.pair_sublist_mergeSort simLe_trans simLe_total
          (decide_eq_true (le_of_eq hxy.symm)) hsub

end Burnout

namespace Burnout

theorem searchBookChunks_witness_eval :
    searchBookChunks (.present [⟨"c1", [], [1], "B", 0⟩]) [0] 0 5 =
      .ok [⟨⟨"c1", [], [1], "B", 0⟩, 0⟩] := by
  have hcos : cosineSimilarity [0] [1] = .ok 0 := by
    apply cosineSimilarity_zero_norm [0] [1] rfl
    left
    have h0 : sumSq ([0] : List ℚ) = 0 := by norm_num [sumSq, dotProduct]
    rw [h0]
    norm_num [Real.sqrt_zero]
  simp only [searchBookChunks, loadBookChunks, scoreChunks, hcos]
  norm_num [List.mergeSort_singleton, List.filter]

/-- Witness for C2 at a concrete one-chunk store and zero query vector. -/
theorem searchBookChunks_ordering_witness :
    searchBookChunks (.present [⟨"c1", [], [1], "B", 0⟩]) [0] 0 5 =
      .ok [⟨⟨"c1", [], [1], "B", 0⟩, 0⟩] ∧
    ([⟨⟨"c1", [], [1], "B", 0⟩, 0⟩] : List ScoredChunk).Pairwise
      (fun a b => b.similarity ≤ a.similarity) ∧
    ([⟨⟨"c1", [], [1], "B", 0⟩, 0⟩] : List ScoredChunk).length ≤ 5 :=
  ⟨searchBookChunks_witness_eval,
    (searchBookChunks_ordering _ _ _ _ _ searchBookChunks_witness_eval).1,
    (searchBookChunks_ordering _ _ _ _ _ searchBookChunks_witness_eval).2.2.2.1⟩

end Burnout

namespace Burnout

/-- Claim C1: the route first searches at threshold `0.30` cap `10`; a looser
step runs only when the previous step returned zero results (the result does
not depend on the search behaviour at looser steps once a step is non-empty);
and the non-empty result set is truncated to the top 5 for the downstream
answer, sources and confidence. -/
theorem progressive_relaxation
    (s₁ s₂ : ℚ → ℕ → List ScoredChunk)
    (embed : Str → List ℚ) (search : List ℚ → ℚ → ℕ → List ScoredChunk)
    (gen : Str → List ScoredChunk → Str) (question : Str)
    (hvalid : ¬(question = [] ∨ (trim question).length = 0))
    (hlen : ¬question.length > 1000) :
    (s₁ (3/10) 10 ≠ [] → retrieveChunks s₁ = s₁ (3/10) 10) ∧
    (s₁ (3/10) 10 = [] → s₁ (2/10) 15 ≠ [] → retrieveChunks s₁ = s₁ (2/10) 15) ∧
    (s₁ (3/10) 10 = [] → s₁ (2/10) 15 = [] → retrieveChunks s₁ = s₁ (1/10) 20) ∧
    (s₁ (3/10) 10 = s₂ (3/10) 10 → s₁ (3/10) 10 ≠ [] →
      retrieveChunks s₁ = retrieveChunks s₂) ∧
    (s₁ (3/10) 10 = s₂ (3/10) 10 → s₁ (2/10) 15 = s₂ (2/10) 15 → s₁ (2/10) 15 ≠ [] →
      retrieveChunks s₁ = retrieveChunks s₂) ∧
    (retrieveChunks (search (embed question)) ≠ [] →
      POST embed search gen (.str question) =
        .ok { answer := gen question ((retrieveChunks (search (embed question))).take 5)
              sources := mkSources ((retrieveChunks (search (embed question))).take 5)
              confidence := averageConfidence ((retrieveChunks (search (embed question))).take 5)
              chunksFound := (retrieveChunks (search (embed question))).length }) := by
  refine ⟨?_, ?_, ?_, ?_, ?_, ?_⟩
  · intro h1
    simp [retrieveChunks, List.length_eq_zero, h1]
  · intro h1 h2
    simp [retrieveChunks, List.length_eq_zero, h1, h2]
  · intro h1 h2
    simp [retrieveChunks, List.length_eq_zero, h1, h2]
  · intro hagree h1
    have h1b : s₂ (3/10) 10 ≠ [] := hagree ▸ h1
    simp [retrieveChunks, List.length_eq_zero, h1, h1b, hagree]
  · intro ha1 ha2 h2
    have h2b : s₂ (2/10) 15 ≠ [] := ha2 ▸ h2
    by_cases h1 : s₁ (3/10) 10 = []
    · have h1b : s₂ (3/10) 10 = [] := ha1 ▸ h1
      simp [retrieveChunks, List.length_eq_zero, h1, h1b, h2, h2b, ha2]
    · have h1b : s₂ (3/10) 10 ≠ [] := ha1 ▸ h1
      simp [retrieveChunks, List.length_eq_zero, h1, h1b, ha1]
  · intro hne
    simp only [POST]
    rw [if_neg hvalid, if_neg hlen,
      if_neg (fun hc => hne (List.length_eq_zero.mp hc))]

end Burnout

namespace Burnout

/-- Witness for C1: with a search that answers only at `(0.30, 10)`, the
tightest step wins, the looser steps are never consulted (replacing their
behaviour does not change the outcome), and the successful route response is
built from the top-5 truncation. -/
theorem progressive_relaxation_witness :
    retrieveChunks (fun t _ => if t = 3/10 then [⟨⟨"a", [], [], "B", 0⟩, 1⟩] else []) =
      retrieveChunks (fun t _ => if t = 3/10 then [⟨⟨"a", [], [], "B", 0⟩, 1⟩]
        else [⟨⟨"a", [], [], "B", 0⟩, 1⟩, ⟨⟨"a", [], [], "B", 0⟩, 1⟩]) ∧
    POST (fun _ => []) (fun _ t _ => if t = 3/10 then [⟨⟨"a", [], [], "B", 0⟩, 1⟩] else [])
        (fun _ _ => []) (.str ['h', 'i']) =
      .ok { answer := []
            sources := mkSources ((retrieveChunks (fun t _ =>
              if t = 3/10 then [⟨⟨"a", [], [], "B", 0⟩, 1⟩] else [])).take 5)
            confidence := averageConfidence ((retrieveChunks (fun t _ =>
              if t = 3/10 then [⟨⟨"a", [], [], "B", 0⟩, 1⟩] else [])).take 5)
            chunksFound := (retrieveChunks (fun t _ =>
              if t = 3/10 then [⟨⟨"a", [], [], "B", 0⟩, 1⟩] else [])).length } := by
  constructor
  · exact (progressive_relaxation
      (fun t _ => if t = 3/10 then [⟨⟨"a", [], [], "B", 0⟩, 1⟩] else [])
      (fun t _ => if t = 3/10 then [⟨⟨"a", [], [], "B", 0⟩, 1⟩]
        else [⟨⟨"a", [], [], "B", 0⟩, 1⟩, ⟨⟨"a", [], [], "B", 0⟩, 1⟩])
      (fun _ => []) (fun _ _ _ => []) (fun _ _ => []) ['h', 'i']
      (by decide) (by decide)).2.2.2.1 (by norm_num) (by norm_num)
  · exact (progressive_relaxation
      (fun _ _ => []) (fun _ _ => [])
      (fun _ => []) (fun _ t _ => if t = 3/10 then [⟨⟨"a", [], [], "B", 0⟩, 1⟩] else [])
      (fun _ _ => []) ['h', 'i']
      (by decide) (by decide)).2.2.2.2.2 (by norm_num [retrieveChunks])

/-- Claim C6: a successful route response carries as `confidence` the rounded
percentage of the mean similarity of the final top-5 chunks; and when every
threshold step returns zero results (in particular against an empty store,
where the search is constantly empty), the route returns a normal `.ok`
response with the graceful no-grounding answer, no sources, confidence `0`
and zero chunks — not an error. -/
theorem confidence_mean_and_graceful_empty
    (embed : Str → List ℚ) (search : List ℚ → ℚ → ℕ → List ScoredChunk)
    (gen : Str → List ScoredChunk → Str) (question : Str)
    (hvalid : ¬(question = [] ∨ (trim question).length = 0))
    (hlen : ¬question.length > 1000) :
    (∀ r, POST embed search gen (.str question) = .ok r →
      retrieveChunks (search (embed question)) ≠ [] →
      r.confidence =
        round ((((retrieveChunks (search (embed question))).take 5).map
            (fun c => c.similarity)).sum /
          ((((retrieveChunks (search (embed question))).take 5).length : ℕ) : ℝ) * 100)) ∧
    (search (embed question) (3/10) 10 = [] →
      search (embed question) (2/10) 15 = [] →
      search (embed question) (1/10) 20 = [] →
      POST embed search gen (.str question) =
        .ok { answer := noRelevantMessage, sources := [], confidence := 0,
              chunksFound := 0 }) := by
  constructor
  · intro r hr hne
    simp only [POST] at hr
    rw [if_neg hvalid, if_neg hlen,
      if_neg (fun hc => hne (List.length_eq_zero.mp hc))] at hr
    have hr' := (PostResult.ok.inj hr).symm
    subst hr'
    have htop : 0 < ((retrieveChunks (search (embed question))).take 5).length := by
      rw [List.length_take]
      have : 0 < (retrieveChunks (search (embed question))).length :=
        List.length_pos.mpr hne
      omega
    simp only [averageConfidence, if_pos htop]
  · intro h1 h2 h3
    have hempty : retrieveChunks (search (embed question)) = [] := by
      simp [retrieveChunks, h1, h2]
      simpa using h3
    simp only [POST]
    rw [if_neg hvalid, if_neg hlen, if_pos (by rw [hempty]; rfl)]

/-- Witness for C6: the all-empty search (an empty store) yields the graceful
empty response with confidence 0. -/
theorem confidence_mean_and_graceful_empty_witness :
    POST (fun _ => []) (fun _ _ _ => []) (fun _ _ => []) (.str ['h', 'i']) =
      .ok { answer := noRelevantMessage, sources := [], confidence := 0,
            chunksFound := 0 } :=
  (confidence_mean_and_graceful_empty (fun _ => []) (fun _ _ _ => []) (fun _ _ => [])
    ['h', 'i'] (by decide) (by decide)).2 rfl rfl rfl

end Burnout

namespace Burnout

/-- Claim C8: requests whose question is missing, not a string, empty or
whitespace-only, or longer than 1000 characters get a 400 validation error,
and the outcome is independent of the embedding provider, the store search
and the chat model (no external call can influence it); a valid question of
exactly 1000 characters passes validation and yields a 200 response. -/
theorem input_validation
    (e₁ e₂ : Str → List ℚ) (s₁ s₂ : List ℚ → ℚ → ℕ → List ScoredChunk)
    (g₁ g₂ : Str → List ScoredChunk → Str) :
    (∀ q : Str, invalidQuestion (.str q) = true ↔
      (q = [] ∨ (trim q).length = 0 ∨ q.length > 1000)) ∧
    invalidQuestion .missing = true ∧
    invalidQuestion .nonString = true ∧
    (∀ v, invalidQuestion v = true →
      (∃ msg, POST e₁ s₁ g₁ v = .badRequest msg) ∧
      POST e₁ s₁ g₁ v = POST e₂ s₂ g₂ v) ∧
    (∀ q : Str, (trim q).length ≠ 0 → q.length = 1000 →
      ∃ r, POST e₁ s₁ g₁ (.str q) = .ok r) := by
  refine ⟨?_, rfl, rfl, ?_, ?_⟩
  · intro q
    simp only [invalidQuestion, Bool.or_eq_true, List.isEmpty_iff,
      List.length_eq_zero, decide_eq_true_eq, gt_iff_lt, or_assoc]
  · intro v hv
    cases v with
    | missing => exact ⟨⟨_, rfl⟩, rfl⟩
    | nonString => exact ⟨⟨_, rfl⟩, rfl⟩
    | str q =>
      have hq : (q = [] ∨ trim q = []) ∨ 1000 < q.length := by
        simpa [invalidQuestion, List.isEmpty_iff, List.length_eq_zero] using hv
      by_cases h1 : q = [] ∨ (trim q).length = 0
      · constructor
        · exact ⟨_, by simp only [POST]; rw [if_pos h1]⟩
        · simp only [POST]; rw [if_pos h1, if_pos h1]
      · have h2 : q.length > 1000 := by
          rcases hq with (h | h) | h
          · exact absurd (Or.inl h) h1
          · exact absurd (Or.inr (by rw [h]; rfl)) h1
          · exact h
        constructor
        · exact ⟨_, by simp only [POST]; rw [if_neg h1, if_pos h2]⟩
        · simp only [POST]; rw [if_neg h1, if_pos h2, if_neg h1, if_pos h2]
  · intro q htrim hlen
    have h1 : ¬(q = [] ∨ (trim q).length = 0) := by
      rintro (h | h)
      · exact htrim (by rw [h]; rfl)
      · exact htrim h
    have h2 : ¬q.length > 1000 := by omega
    simp only [POST]
    rw [if_neg h1, if_neg h2]
    by_cases h3 : (retrieveChunks (s₁ (e₁ q))).length = 0
    · rw [if_pos h3]; exact ⟨_, rfl⟩
    · rw [if_neg h3]; exact ⟨_, rfl⟩

set_option maxRecDepth 100000 in
/-- Witness for C8: a 1001-character question is rejected independently of the
collaborators, and a 1000-character question is accepted. -/
theorem input_validation_witness :
    (∃ msg, POST (fun _ => []) (fun _ _ _ => []) (fun _ _ => [])
      (.str (List.replicate 1001 'a')) = .badRequest msg) ∧
    (∃ r, POST (fun _ => []) (fun _ _ _ => []) (fun _ _ => [])
      (.str (List.replicate 1000 'a')) = .ok r) :=
  ⟨((input_validation (fun _ => []) (fun _ => []) (fun _ _ _ => []) (fun _ _ _ => [])
      (fun _ _ => []) (fun _ _ => [])).2.2.2.1
    (.str (List.replicate 1001 'a')) (by decide)).1,
   (input_validation (fun _ => []) (fun _ => []) (fun _ _ _ => []) (fun _ _ _ => [])
      (fun _ _ => []) (fun _ _ => [])).2.2.2.2
    (List.replicate 1000 'a') (by decide) (by decide)⟩

end Burnout

namespace Burnout

theorem toBatchesAux_flatten (n : ℕ) :
    ∀ (fuel : ℕ) (l : List α), (toBatchesAux n fuel l).flatten = l := by
  intro fuel
  induction fuel with
  | zero =>
    intro l
    cases l with
    | nil => rfl
    | cons x xs => simp [toBatchesAux]
  | succ fuel ih =>
    intro l
    cases l with
    | nil => rfl
    | cons x xs =>
      simp only [toBatchesAux, List.flatten_cons, ih]
      exact List.take_append_drop n (x :: xs)

theorem toBatches_flatten (n : ℕ) (l : List α) : (toBatches n l).flatten = l :=
  toBatchesAux_flatten n l.length l

theorem uploadBatches_inserted (ok : ℕ → Bool) :
    ∀ (bs : List (List Row)) (k : ℕ) (store : Store),
      ∃ ins, (uploadBatches ok bs k store).1 = store ++ ins ∧ ins <+: bs.flatten := by
  intro bs
  induction bs with
  | nil =>
    intro k store
    exact ⟨[], (List.append_nil store).symm, List.nil_prefix⟩
  | cons b bs ih =>
    intro k store
    by_cases hk : ok k
    · obtain ⟨ins, hins, ⟨t, ht⟩⟩ := ih (k + 1) (store ++ b)
      refine ⟨b ++ ins, ?_, ⟨t, ?_⟩⟩
      · rw [uploadBatches, if_pos hk, hins, List.append_assoc]
      · rw [List.flatten_cons, ← ht, List.append_assoc]
    · refine ⟨[], ?_, List.nil_prefix⟩
      rw [uploadBatches, if_neg hk, List.append_nil]

theorem embeddedRows_title (embedOk : ℕ → Bool) (bookTitle : String) (textChunks : List Str) :
    ∀ r ∈ embeddedRows embedOk bookTitle textChunks, r.book_title = bookTitle := by
  intro r hr
  obtain ⟨p, _, hp⟩ := List.mem_map.mp hr
  rw [← hp]

/-- Counterexample to claim C7: re-uploading book "A" (11 chunks, so two
insert batches of 10) over a store holding one old "A" row, with the second
insert failing, leaves the store holding exactly the first 10 new rows — the
old row is gone (prior state not untouched) and the replacement is not
complete either. -/
theorem ingestion_atomicity_cex :
    processBookToSupabase (fun _ => true) (fun k => k == 0) "A"
        (List.replicate 11 ['x']) true [⟨"A", 0, ['o']⟩] ≠ [⟨"A", 0, ['o']⟩] ∧
    (processBookToSupabase (fun _ => true) (fun k => k == 0) "A"
        (List.replicate 11 ['x']) true [⟨"A", 0, ['o']⟩]).filter
        (fun r => r.book_title = "A") ≠
      embeddedRows (fun _ => true) "A" (List.replicate 11 ['x']) := by
  decide

/-- Amended C7: with `clearExisting` set, the old rows of the book are always
deleted before any insert, so old and partially-written new chunks are never
visible together (every surviving row of the book comes from the new upload);
however the replacement is not atomic: after a mid-upload failure the store
holds some prefix of the new row list for that book (other books' rows are
untouched). -/
theorem processBook_replacement (embedOk uploadOk : ℕ → Bool) (bookTitle : String)
    (textChunks : List Str) (store : Store) :
    (∀ r ∈ processBookToSupabase embedOk uploadOk bookTitle textChunks true store,
      r.book_title = bookTitle → r ∈ embeddedRows embedOk bookTitle textChunks) ∧
    (processBookToSupabase embedOk uploadOk bookTitle textChunks true store).filter
        (fun r => r.book_title = bookTitle) <+:
      embeddedRows embedOk bookTitle textChunks ∧
    (processBookToSupabase embedOk uploadOk bookTitle textChunks true store).filter
        (fun r => r.book_title ≠ bookTitle) =
      store.filter (fun r => r.book_title ≠ bookTitle) := by
  obtain ⟨ins, hins, hpre⟩ := uploadBatches_inserted uploadOk
    (toBatches 10 (embeddedRows embedOk bookTitle textChunks)) 0
    (clearBookChunks bookTitle store)
  have hfinal : processBookToSupabase embedOk uploadOk bookTitle textChunks true store =
      clearBookChunks bookTitle store ++ ins := by
    simpa [processBookToSupabase, uploadChunksToSupabase] using hins
  rw [toBatches_flatten] at hpre
  have hinsmem : ∀ r ∈ ins, r ∈ embeddedRows embedOk bookTitle textChunks := by
    intro r hr
    exact hpre.sublist.mem hr
  have hclearmem : ∀ r ∈ clearBookChunks bookTitle store, ¬r.book_title = bookTitle := by
    intro r hr
    have := (List.mem_filter.mp hr).2
    simpa using this
  refine ⟨?_, ?_, ?_⟩
  · intro r hr htitle
    rw [hfinal] at hr
    rcases List.mem_append.mp hr with hr1 | hr2
    · exact absurd htitle (hclearmem r hr1)
    · exact hinsmem r hr2
  · rw [hfinal, List.filter_append]
    have hc : (clearBookChunks bookTitle store).filter
        (fun r => r.book_title = bookTitle) = [] := by
      rw [List.filter_eq_nil_iff]
      intro r hr
      simpa using hclearmem r hr
    have hi : ins.filter (fun r => r.book_title = bookTitle) = ins := by
      rw [List.filter_eq_self]
      intro r hr
      simpa using embeddedRows_title embedOk bookTitle textChunks r (hinsmem r hr)
    rw [hc, hi, List.nil_append]
    exact hpre
  · rw [hfinal, List.filter_append]
    have hi : ins.filter (fun r => r.book_title ≠ bookTitle) = [] := by
      rw [List.filter_eq_nil_iff]
      intro r hr
      simpa using embeddedRows_title embedOk bookTitle textChunks r (hinsmem r hr)
    have hc : (clearBookChunks bookTitle store).filter
        (fun r => r.book_title ≠ bookTitle) = clearBookChunks bookTitle store := by
      rw [List.filter_eq_self]
      intro r hr
      simpa using hclearmem r hr
    rw [hi, hc, List.append_nil]
    rfl

/-- Witness for C7's amended theorem: on a one-chunk upload over an empty
store, the surviving "A" row indeed comes from the new upload. -/
theorem processBook_replacement_witness :
    (⟨"A", 0, ['x']⟩ : Row) ∈ embeddedRows (fun _ => true) "A" [['x']] :=
  (processBook_replacement (fun _ => true) (fun _ => true) "A" [['x']] []).1
    ⟨"A", 0, ['x']⟩ (by decide) rfl

end Burnout

namespace Burnout

theorem dropWhile_head?_false (p : Char → Bool) :
    ∀ (l : Str) (c : Char), (l.dropWhile p).head? = some c → p c = false := by
  intro l
  induction l with
  | nil => intro c hc; exact absurd hc (by simp)
  | cons a l ih =>
    intro c hc
    rw [List.dropWhile_cons] at hc
    by_cases ha : p a
    · rw [if_pos ha] at hc
      exact ih c hc
    · rw [if_neg ha] at hc
      simp only [List.head?_cons, Option.some.injEq] at hc
      rw [← hc]
      exact Bool.not_eq_true _ ▸ ha

theorem dropWhile_eq_self_of_head (p : Char → Bool) (l : Str)
    (h : ∀ c ∈ l.head?, p c = false) : l.dropWhile p = l := by
  cases l with
  | nil => rfl
  | cons a l =>
    rw [List.dropWhile_cons, if_neg]
    rw [h a rfl]
    exact Bool.false_ne_true

theorem getLast?_of_suffix {l₁ l₂ : Str} (h : l₁ <:+ l₂) (hne : l₁ ≠ []) :
    l₂.getLast? = l₁.getLast? := by
  obtain ⟨t, ht⟩ := h
  rw [← ht, List.getLast?_append]
  obtain ⟨a, ha⟩ := Option.ne_none_iff_exists'.mp
    (fun hnone => hne (List.getLast?_eq_none_iff.mp hnone))
  rw [ha, Option.or_some]

theorem okStr_nil : okStr [] := by
  constructor <;> intro c hc <;> exact absurd hc (by simp)

theorem okStr_trim (s : Str) : okStr (trim s) := by
  constructor
  · intro c hc
    rw [trim, List.head?_reverse] at hc
    by_cases hv : (s.dropWhile isWs).reverse.dropWhile isWs = []
    · rw [hv] at hc
      exact absurd hc (by simp)
    · rw [← getLast?_of_suffix (List.dropWhile_suffix isWs) hv, List.getLast?_reverse] at hc
      exact dropWhile_head?_false isWs s c hc
  · intro c hc
    rw [trim, List.getLast?_reverse] at hc
    exact dropWhile_head?_false isWs _ c hc

theorem trim_eq_self_of_okStr (s : Str) (h : okStr s) : trim s = s := by
  obtain ⟨h1, h2⟩ := h
  rw [trim, dropWhile_eq_self_of_head isWs s h1, dropWhile_eq_self_of_head isWs s.reverse
    (by intro c hc; rw [List.head?_reverse] at hc; exact h2 c hc), List.reverse_reverse]

theorem fmtSentence_ne_nil (s : Str) : fmtSentence s ≠ [] := by
  intro h
  have := congrArg List.length h
  rw [fmtSentence, List.length_append] at this
  simp at this

theorem fmtSentence_getLast? (s : Str) : (fmtSentence s).getLast? = some '.' := by
  rw [fmtSentence, List.getLast?_append]
  rfl

theorem okStr_fmtSentence (s : Str) : okStr (fmtSentence s) := by
  constructor
  · intro c hc
    rw [fmtSentence, List.head?_append] at hc
    cases htr : (trim s).head? with
    | none =>
      rw [htr, Option.none_or] at hc
      rw [List.head?_cons, Option.mem_def, Option.some.injEq] at hc
      rw [← hc]
      rfl
    | some a =>
      rw [htr, Option.or_some] at hc
      rw [Option.mem_def, Option.some.injEq] at hc
      rw [← hc]
      exact (okStr_trim s).1 a htr
  · intro c hc
    rw [fmtSentence_getLast? s, Option.mem_def, Option.some.injEq] at hc
    rw [← hc]
    rfl

theorem okStr_append_space (a b : Str) (ha : okStr a) (hane : a ≠ [])
    (hb : okStr b) (hbne : b ≠ []) : okStr (a ++ ' ' :: b) := by
  constructor
  · intro c hc
    rw [List.head?_append] at hc
    cases a with
    | nil => exact absurd rfl hane
    | cons x xs =>
      rw [List.head?_cons, Option.or_some] at hc
      rw [Option.mem_def, Option.some.injEq] at hc
      rw [← hc]
      exact ha.1 x rfl
  · intro c hc
    rw [List.getLast?_append] at hc
    have hlast : (' ' :: b).getLast? = b.getLast? := by
      cases b with
      | nil => exact absurd rfl hbne
      | cons y ys => rw [List.getLast?_cons_cons]
    rw [hlast] at hc
    obtain ⟨d, hd⟩ := Option.ne_none_iff_exists'.mp
      (fun hnone => hbne (List.getLast?_eq_none_iff.mp hnone))
    rw [hd, Option.or_some] at hc
    rw [← hd] at hc
    exact hb.2 c hc

end Burnout

namespace Burnout

theorem splitRuns_ne_nil (p : Char → Bool) : ∀ s : Str, splitRuns p s ≠ []
  | [] => by simp [splitRuns]
  | [c] => by by_cases hc : p c <;> simp [splitRuns, hc]
  | c :: c2 :: cs => by
    have ih := splitRuns_ne_nil p (c2 :: cs)
    by_cases h1 : p c
    · by_cases h2 : p c2 <;> simp [splitRuns, h1, h2, ih]
    · simp only [splitRuns, if_neg h1]
      cases hr : splitRuns p (c2 :: cs) with
      | nil => simp
      | cons piece rest => simp

theorem splitRuns_content (p : Char → Bool) :
    ∀ s : Str, ∀ w ∈ splitRuns p s, ∀ c ∈ w, p c = false
  | [] => by simp [splitRuns]
  | [c] => by
    by_cases hc : p c
    · simp [splitRuns, hc]
    · simp only [splitRuns, if_neg hc]
      intro w hw d hd
      rcases List.mem_singleton.mp hw with h
      subst h
      rcases List.mem_singleton.mp hd with h'
      subst h'
      exact Bool.not_eq_true _ ▸ hc
  | c :: c2 :: cs => by
    have ih := splitRuns_content p (c2 :: cs)
    by_cases h1 : p c
    · by_cases h2 : p c2
      · simp only [splitRuns, if_pos h1, if_pos h2]
        exact ih
      · simp only [splitRuns, if_pos h1, if_neg h2]
        intro w hw
        rcases List.mem_cons.mp hw with h | h
        · subst h
          intro d hd
          exact absurd hd (List.not_mem_nil d)
        · exact ih w h
    · simp only [splitRuns, if_neg h1]
      cases hr : splitRuns p (c2 :: cs) with
      | nil => exact absurd hr (splitRuns_ne_nil p _)
      | cons piece rest =>
        intro w hw
        rcases List.mem_cons.mp hw with h | h
        · subst h
          intro d hd
          rcases List.mem_cons.mp hd with h' | h'
          · subst h'
            exact Bool.not_eq_true _ ▸ h1
          · exact ih piece (hr ▸ List.mem_cons_self piece rest) d h'
        · exact ih w (hr ▸ List.mem_cons_of_mem piece h)

theorem splitRuns_head_ne_nil (p : Char → Bool) :
    ∀ s : Str, s ≠ [] → (∀ c ∈ s.head?, p c = false) →
      ∃ w ws, splitRuns p s = w :: ws ∧ w ≠ [] := by
  intro s
  match s with
  | [] => intro h _; exact absurd rfl h
  | [c] =>
    intro _ h
    have hc : p c = false := h c rfl
    refine ⟨[c], [], ?_, List.cons_ne_nil c []⟩
    simp [splitRuns, hc]
  | c :: c2 :: cs =>
    intro _ h
    have hc : p c = false := h c rfl
    simp only [splitRuns, hc, Bool.false_eq_true, if_false]
    cases hr : splitRuns p (c2 :: cs) with
    | nil => exact absurd hr (splitRuns_ne_nil p _)
    | cons piece rest => exact ⟨c :: piece, rest, rfl, List.cons_ne_nil c piece⟩

theorem splitRuns_tail_ne_nil (p : Char → Bool) :
    ∀ s : Str, (∀ c ∈ s.getLast?, p c = false) → ∀ w ∈ (splitRuns p s).tail, w ≠ []
  | [] => by simp [splitRuns]
  | [c] => by
    intro h w hw
    have hc : p c = false := h c rfl
    simp [splitRuns, hc] at hw
  | c :: c2 :: cs => by
    intro h w hw
    have hlast : ∀ d ∈ (c2 :: cs).getLast?, p d = false := by
      intro d hd
      apply h
      rw [List.getLast?_cons_cons]
      exact hd
    have ih := splitRuns_tail_ne_nil p (c2 :: cs) hlast
    by_cases h1 : p c
    · by_cases h2 : p c2
      · rw [show splitRuns p (c :: c2 :: cs) = splitRuns p (c2 :: cs) by
          simp [splitRuns, h1, h2]] at hw
        exact ih w hw
      · rw [show splitRuns p (c :: c2 :: cs) = [] :: splitRuns p (c2 :: cs) by
          simp [splitRuns, h1, h2]] at hw
        rw [List.tail_cons] at hw
        obtain ⟨w0, ws0, hw0, hw0ne⟩ := splitRuns_head_ne_nil p (c2 :: cs)
          (List.cons_ne_nil c2 cs) (by
            intro d hd
            rw [List.head?_cons, Option.mem_def, Option.some.injEq] at hd
            rw [← hd]
            exact Bool.not_eq_true _ ▸ h2)
        rw [hw0] at hw
        rcases List.mem_cons.mp hw with h' | h'
        · subst h'
          exact hw0ne
        · exact ih w (hw0 ▸ h')
    · simp only [splitRuns, if_neg h1] at hw
      cases hr : splitRuns p (c2 :: cs) with
      | nil => exact absurd hr (splitRuns_ne_nil p _)
      | cons piece rest =>
        rw [hr] at hw
        rw [List.tail_cons] at hw
        apply ih w
        rw [hr, List.tail_cons]
        exact hw

theorem splitRuns_pieces_ok (s : Str) (hne : s ≠ []) (h : okStr s) :
    ∀ w ∈ splitRuns isWs s, w ≠ [] ∧ ∀ c ∈ w, isWs c = false := by
  intro w hw
  refine ⟨?_, splitRuns_content isWs s w hw⟩
  obtain ⟨w0, ws0, hw0, hw0ne⟩ := splitRuns_head_ne_nil isWs s hne h.1
  rw [hw0] at hw
  rcases List.mem_cons.mp hw with h' | h'
  · subst h'
    exact hw0ne
  · apply splitRuns_tail_ne_nil isWs s h.2 w
    rw [hw0, List.tail_cons]
    exact h'

end Burnout

namespace Burnout

theorem joinSp_ne_nil : ∀ ws : List Str, ws ≠ [] → (∀ w ∈ ws, w ≠ []) → joinSp ws ≠ []
  | [], h, _ => absurd rfl h
  | [w], _, hall => by simpa [joinSp] using hall w (List.mem_singleton_self w)
  | w :: w2 :: ws, _, _ => by
    simp only [joinSp]
    simp [List.append_eq_nil]

theorem joinSp_head? : ∀ (w : Str) (ws : List Str), w ≠ [] →
    (joinSp (w :: ws)).head? = w.head?
  | w, [], _ => rfl
  | w, w2 :: ws, hne => by
    simp only [joinSp, List.head?_append]
    cases w with
    | nil => exact absurd rfl hne
    | cons x xs => rw [List.head?_cons, Option.or_some]

theorem joinSp_getLast?_mem : ∀ ws : List Str, ws ≠ [] → (∀ w ∈ ws, w ≠ []) →
    ∃ w ∈ ws, (joinSp ws).getLast? = w.getLast?
  | [], h, _ => absurd rfl h
  | [w], _, _ => ⟨w, List.mem_singleton_self w, rfl⟩
  | w :: w2 :: ws, _, hall => by
    obtain ⟨w', hw', hlast⟩ := joinSp_getLast?_mem (w2 :: ws) (List.cons_ne_nil w2 ws)
      (fun x hx => hall x (List.mem_cons_of_mem w hx))
    refine ⟨w', List.mem_cons_of_mem w hw', ?_⟩
    have hj : joinSp (w2 :: ws) ≠ [] := joinSp_ne_nil (w2 :: ws) (List.cons_ne_nil w2 ws)
      (fun x hx => hall x (List.mem_cons_of_mem w hx))
    simp only [joinSp, List.getLast?_append]
    have hcons : (' ' :: joinSp (w2 :: ws)).getLast? = (joinSp (w2 :: ws)).getLast? := by
      cases hjj : joinSp (w2 :: ws) with
      | nil => exact absurd hjj hj
      | cons y ys => rw [List.getLast?_cons_cons]
    rw [hcons, hlast]
    obtain ⟨d, hd⟩ := Option.ne_none_iff_exists'.mp
      (fun hnone => hall w' (List.mem_cons_of_mem w hw')
        (List.getLast?_eq_none_iff.mp hnone))
    rw [hd, Option.or_some]

theorem sliceNeg_ne_nil (n : ℕ) (l : List α) (h : l ≠ []) : sliceNeg n l ≠ [] := by
  rw [sliceNeg]
  by_cases hn : n = 0
  · rw [if_pos hn]
    exact h
  · rw [if_neg hn]
    intro hc
    have hlen := congrArg List.length hc
    rw [List.length_drop, List.length_nil] at hlen
    have hpos : 0 < l.length := List.length_pos.mpr h
    omega

theorem sliceNeg_subset (n : ℕ) (l : List α) : ∀ w ∈ sliceNeg n l, w ∈ l := by
  intro w hw
  rw [sliceNeg] at hw
  by_cases hn : n = 0
  · rw [if_pos hn] at hw
    exact hw
  · rw [if_neg hn] at hw
    exact List.drop_subset _ l hw

theorem seedOf_ok (ov : ℕ) (cur : Str) (hne : cur ≠ []) (h : okStr cur) :
    seedOf ov cur ≠ [] ∧ okStr (seedOf ov cur) := by
  have hpieces := splitRuns_pieces_ok cur hne h
  have hwordsne : splitRuns isWs cur ≠ [] := splitRuns_ne_nil isWs cur
  have hkeptne : sliceNeg ov (splitRuns isWs cur) ≠ [] := sliceNeg_ne_nil ov _ hwordsne
  have hkeptall : ∀ w ∈ sliceNeg ov (splitRuns isWs cur), w ≠ [] :=
    fun w hw => (hpieces w (sliceNeg_subset ov _ w hw)).1
  have hkeptcontent : ∀ w ∈ sliceNeg ov (splitRuns isWs cur), ∀ c ∈ w, isWs c = false :=
    fun w hw => (hpieces w (sliceNeg_subset ov _ w hw)).2
  refine ⟨joinSp_ne_nil _ hkeptne hkeptall, ?_, ?_⟩
  · intro c hc
    rw [seedOf] at hc
    cases hk : sliceNeg ov (splitRuns isWs cur) with
    | nil => exact absurd hk hkeptne
    | cons w ws =>
      rw [hk, joinSp_head? w ws (hkeptall w (hk ▸ List.mem_cons_self w ws))] at hc
      exact hkeptcontent w (hk ▸ List.mem_cons_self w ws) c (List.mem_of_mem_head? hc)
  · intro c hc
    rw [seedOf] at hc
    obtain ⟨w, hwmem, hlast⟩ := joinSp_getLast?_mem _ hkeptne hkeptall
    rw [hlast] at hc
    exact hkeptcontent w hwmem c (List.mem_of_mem_getLast? hc)

end Burnout

namespace Burnout

theorem buildAux_acc (cs ov : ℕ) :
    ∀ (sents : List Str) (chunks : List Str) (cur : Str) (tok : ℕ),
      buildChunksAux cs ov sents chunks cur tok =
        chunks ++ buildChunksAux cs ov sents [] cur tok := by
  intro sents
  induction sents with
  | nil =>
    intro chunks cur tok
    simp only [buildChunksAux]
    by_cases h : (trim cur).length > 0
    · rw [if_pos h, if_pos h, List.nil_append]
    · rw [if_neg h, if_neg h, List.append_nil]
  | cons sen rest ih =>
    intro chunks cur tok
    simp only [buildChunksAux]
    by_cases h : tok + estimateTokens (fmtSentence sen) > cs ∧ cur.length > 0
    · rw [if_pos h, if_pos h, ih (chunks ++ [trim cur]), ih ([] ++ [trim cur]),
        List.nil_append, List.append_assoc]
    · rw [if_neg h, if_neg h]
      exact ih chunks _ _

theorem buildAux_master (cs ov : ℕ) :
    ∀ (sents : List Str) (cur : Str) (tok : ℕ), cur ≠ [] → okStr cur →
      ∃ ext tail,
        buildChunksAux cs ov sents [] cur tok = (cur ++ ext) :: tail ∧
        dropSeeds ov ((cur ++ ext) :: tail) =
          cur ++ (sents.map (fun s => ' ' :: fmtSentence s)).flatten ∧
        List.Chain' (fun a b => (seedOf ov a ++ [' ']) <+: b) ((cur ++ ext) :: tail) ∧
        (∀ c ∈ (cur ++ ext) :: tail, c ≠ [] ∧ okStr c) := by
  intro sents
  induction sents with
  | nil =>
    intro cur tok hne hok
    refine ⟨[], [], ?_, ?_, ?_, ?_⟩
    · simp only [buildChunksAux]
      rw [trim_eq_self_of_okStr cur hok,
        if_pos (by simpa [List.length_pos] using hne)]
      simp
    · simp [dropSeeds, dropSeedsAux]
    · simp [List.chain'_singleton]
    · intro c hc
      simp only [List.append_nil, List.mem_singleton] at hc
      subst hc
      exact ⟨hne, hok⟩
  | cons sen rest ih =>
    intro cur tok hne hok
    have hsne : fmtSentence sen ≠ [] := fmtSentence_ne_nil sen
    have hsok : okStr (fmtSentence sen) := okStr_fmtSentence sen
    by_cases hcond : tok + estimateTokens (fmtSentence sen) > cs ∧ cur.length > 0
    · obtain ⟨hseedne, hseedok⟩ := seedOf_ok ov cur hne hok
      have hnewne : seedOf ov cur ++ ' ' :: fmtSentence sen ≠ [] := by simp
      have hnewok : okStr (seedOf ov cur ++ ' ' :: fmtSentence sen) :=
        okStr_append_space _ _ hseedok hseedne hsok hsne
      obtain ⟨ext', tail', h1, h2, h3, h4⟩ :=
        ih (seedOf ov cur ++ ' ' :: fmtSentence sen)
          (estimateTokens (seedOf ov cur ++ ' ' :: fmtSentence sen)) hnewne hnewok
      refine ⟨[], ((seedOf ov cur ++ ' ' :: fmtSentence sen) ++ ext') :: tail',
        ?_, ?_, ?_, ?_⟩
      · simp only [buildChunksAux]
        rw [if_pos hcond, List.nil_append, trim_eq_self_of_okStr cur hok,
          buildAux_acc, h1]
        simp
      · simp only [dropSeeds, dropSeedsAux, List.map_cons, List.flatten_cons,
          List.append_nil]
        have hdrop : ((seedOf ov cur ++ ' ' :: fmtSentence sen) ++ ext').drop
            (seedOf ov cur).length = ' ' :: fmtSentence sen ++ ext' := by
          rw [List.append_assoc]
          exact List.drop_left _ _
        simp only [dropSeeds] at h2
        rw [List.append_assoc] at h2
        have hD := List.append_cancel_left h2
        rw [hdrop, List.append_assoc, hD]
      · rw [List.append_nil]
        rw [List.chain'_cons]
        constructor
        · refine ⟨fmtSentence sen ++ ext', ?_⟩
          simp
        · exact h3
      · intro c hc
        rcases List.mem_cons.mp hc with h' | h'
        · rw [h', List.append_nil]
          exact ⟨hne, hok⟩
        · exact h4 c h'
    · obtain ⟨ext', tail', h1, h2, h3, h4⟩ :=
        ih (cur ++ ' ' :: fmtSentence sen) (tok + estimateTokens (fmtSentence sen))
          (by simp) (okStr_append_space _ _ hok hne hsok hsne)
      refine ⟨' ' :: fmtSentence sen ++ ext', tail', ?_, ?_, ?_, ?_⟩
      · simp only [buildChunksAux]
        rw [if_neg hcond, if_neg hne, h1, List.append_assoc]
      · rw [← List.append_assoc]
        rw [h2, List.map_cons, List.flatten_cons, List.append_assoc]
      · rw [← List.append_assoc]
        exact h3
      · rw [← List.append_assoc]
        exact h4

end Burnout

namespace Burnout

theorem joinSp_cons_flatten : ∀ (w : Str) (ws : List Str),
    joinSp (w :: ws) = w ++ (ws.map (fun v => ' ' :: v)).flatten
  | _, [] => by simp [joinSp]
  | w, w2 :: ws => by
    simp only [joinSp, List.map_cons, List.flatten_cons]
    rw [joinSp_cons_flatten w2 ws]
    simp

theorem finalized_reconstructs (text : Str) (cs ov : ℕ) :
    dropSeeds ov (finalizedChunks text cs ov) =
      joinSp ((splitSentences text).map fmtSentence) := by
  rw [finalizedChunks]
  cases hs : splitSentences text with
  | nil => simp [buildChunksAux, trim, dropSeeds, joinSp]
  | cons sen rest =>
    simp only [buildChunksAux]
    rw [if_neg (by simp)]
    simp only [if_true]
    obtain ⟨ext, tail, h1, h2, _, _⟩ := buildAux_master cs ov rest (fmtSentence sen)
      (0 + estimateTokens (fmtSentence sen)) (fmtSentence_ne_nil sen) (okStr_fmtSentence sen)
    rw [h1, h2, List.map_cons, joinSp_cons_flatten, List.map_map]
    rfl

/-- Counterexample to claim C4: on the input "Hi there. Bye now." (with the
default `chunkSize = 400`, `overlap = 50`) the single finalized chunk is 18
characters long and is discarded by the `chunk.length > 50` filter, so the
output is empty while the input's sentence sequence is not — no concatenation
of the output chunks can reconstruct it, both sentences are dropped. -/
theorem splitText_reconstruction_cex :
    splitTextIntoChunks "Hi there. Bye now.".toList 400 50 = [] ∧
    splitSentences "Hi there. Bye now.".toList ≠ [] ∧
    dropSeeds 50 (splitTextIntoChunks "Hi there. Bye now.".toList 400 50) ≠
      joinSp ((splitSentences "Hi there. Bye now.".toList).map fmtSentence) := by
  decide

/-- Amended C4: `splitTextIntoChunks` is deterministic (it is a pure function
of its inputs), and the chunk sequence *before* the final `length > 50`
filter reconstructs the input's sentence sequence: concatenating the
finalized chunks while dropping the overlap seed of every chunk after the
first yields exactly the space-joined trimmed-and-repunctuated sentences.
The final filter can discard chunks of at most 50 characters along with
their sentences, which is what falsifies the claim for the output. -/
theorem splitText_deterministic_pre_reconstruction (text : Str) (cs ov : ℕ) :
    splitTextIntoChunks text cs ov = splitTextIntoChunks text cs ov ∧
    dropSeeds ov (finalizedChunks text cs ov) =
      joinSp ((splitSentences text).map fmtSentence) :=
  ⟨rfl, finalized_reconstructs text cs ov⟩

/-- Counterexample to claim C9: with `chunkSize = 1` and `overlap = 1` on
`overlapCexText`, the middle finalized chunk is dropped by the `length > 50`
filter, so the two surviving output chunks are not consecutive finalized
chunks: the second output chunk does not begin with the last `overlap = 1`
words of the first output chunk. -/
theorem overlap_invariant_cex :
    (splitTextIntoChunks overlapCexText 1 1).length = 2 ∧
    ¬(seedOf 1 ((splitTextIntoChunks overlapCexText 1 1).getD 0 []) ++ [' '] <+:
        (splitTextIntoChunks overlapCexText 1 1).getD 1 []) ∧
    ¬(seedOf 1 ((splitTextIntoChunks overlapCexText 1 1).getD 0 []) <+:
        (splitTextIntoChunks overlapCexText 1 1).getD 1 []) := by
  decide

/-- Amended C9: the overlap invariant holds for consecutive chunks of the
*finalized* sequence, before the `length > 50` filter: every chunk after the
first begins with the seed `currentChunk.split(/\s+/).slice(-overlap)` of its
predecessor joined by spaces and followed by a space — the last `overlap`
words when `1 ≤ overlap ≤ wordcount`, all of the predecessor's words when
`overlap` exceeds the word count, and (because JS `slice(-0)` is `slice(0)`)
also all words when `overlap = 0`. -/
theorem finalized_overlap_chain (text : Str) (cs ov : ℕ) :
    List.Chain' (fun a b => (seedOf ov a ++ [' ']) <+: b)
      (finalizedChunks text cs ov) := by
  rw [finalizedChunks]
  cases hs : splitSentences text with
  | nil => simp [buildChunksAux, trim]
  | cons sen rest =>
    simp only [buildChunksAux]
    rw [if_neg (by simp)]
    simp only [if_true]
    obtain ⟨ext, tail, h1, _, h3, _⟩ := buildAux_master cs ov rest (fmtSentence sen)
      (0 + estimateTokens (fmtSentence sen)) (fmtSentence_ne_nil sen) (okStr_fmtSentence sen)
    rw [h1]
    exact h3

end Burnout
